import Mathlib

/-
Verification of librank (src/lib.rs, src/rank.rs): a dense-ranking iterator
adapter.  rank_by materializes the input, sorts it with a stable
comparison sort keyed by a caller-supplied key function, then scans the
sorted sequence assigning 1-based dense ranks.

Embedding notes:
* Rust struct Rank(pub usize) becomes a one-field structure over Nat.
* The RankedBy iterator state (iter, f, rank, prev_key) is a structure; its
  fused next method is a step function returning an optional (pair, state).
* Rust Ord on the key type is modelled by a LinearOrder instance; Rust Eq,
  which in the source is a separate trait that may in principle disagree
  with Ord, is modelled by an explicit boolean relation beq passed to the
  scan, so that agreement of Ord and Eq is an explicit hypothesis.
* Vec::sort_by_key is an unspecified stable comparison sort; it is embedded
  as insertion sort keyed by the key function, which is stable and sorted.
* Consuming the iterator to exhaustion (collect) is embedded with explicit
  fuel equal to the length of the remaining input, which suffices because
  each next call consumes exactly one element.
-/

namespace Librank

/-- Rust: pub struct Rank(pub usize). A 1-based rank value. -/
structure Rank where
  val : Nat
deriving DecidableEq

/-- Rust: pub struct RankedBy with fields iter, f, rank, prev_key. -/
structure RankedBy (α κ : Type) where
  iter : List α
  f : α → κ
  rank : Rank
  prev_key : Option κ

variable {α κ : Type}

/-- Equality on Option keys, as used by Rust in
self.prev_key.as_ref() != Some(key), parameterized by the key type's
Eq implementation beq. -/
def optionEq (beq : κ → κ → Bool) : Option κ → Option κ → Bool
  | none, none => true
  | some a, some b => beq a b
  | _, _ => false

/-- Rust: RankedBy::next (impl Iterator). Pulls the next item, computes its
key, and if the key differs from prev_key (per the Eq implementation beq),
increments the rank and records the key; yields the current rank with the
item together with the successor state. -/
def RankedBy.next (beq : κ → κ → Bool) (s : RankedBy α κ) :
    Option ((Rank × α) × RankedBy α κ) :=
  match s.iter with
  | [] => none
  | item :: rest =>
    let key := s.f item
    if optionEq beq s.prev_key (some key) then
      some ((s.rank, item), { s with iter := rest })
    else
      some ((Rank.mk (s.rank.val + 1), item),
        { s with iter := rest, rank := Rank.mk (s.rank.val + 1),
                 prev_key := some key })

/-- Driving the iterator with explicit fuel: at most fuel calls to next,
accumulating the yielded pairs. -/
def RankedBy.collectFuel (beq : κ → κ → Bool) : Nat → RankedBy α κ → List (Rank × α)
  | 0, _ => []
  | fuel + 1, s =>
    match s.next beq with
    | none => []
    | some (p, s') => p :: RankedBy.collectFuel beq fuel s'

/-- Consuming the iterator to exhaustion (e.g. Vec::collect). Fuel equal to
the length of the remaining input suffices since next consumes one element
per call. -/
def RankedBy.collect (beq : κ → κ → Bool) (s : RankedBy α κ) : List (Rank × α) :=
  RankedBy.collectFuel beq s.iter.length s

/-- Rust: v.sort_by_key(f) on the materialized input, a stable comparison
sort by the derived key; embedded as insertion sort keyed by f. -/
def sort_by_key [LinearOrder κ] (xs : List α) (f : α → κ) : List α :=
  List.insertionSort (fun a b => f a ≤ f b) xs

/-- Rust: RankedExt::rank_by. Materializes the source, sorts it with
sort_by_key, and returns the RankedBy iterator with rank 0 and no
previous key. -/
def rank_by [LinearOrder κ] (xs : List α) (f : α → κ) : RankedBy α κ :=
  { iter := sort_by_key xs f
    f := f
    rank := Rank.mk 0
    prev_key := none }

/-- The whole pipeline: rank_by followed by full consumption of the
iterator, with beq the key type's Eq implementation. -/
def rankByCollect [LinearOrder κ] (xs : List α) (f : α → κ)
    (beq : κ → κ → Bool) : List (Rank × α) :=
  (rank_by xs f).collect beq

/-- The scan that repeated next calls perform, written as structural
recursion on the remaining input; used to reason about collect. -/
def rankScan (f : α → κ) (beq : κ → κ → Bool) : Rank → Option κ → List α → List (Rank × α)
  | _, _, [] => []
  | r, pk, a :: rest =>
    if optionEq beq pk (some (f a)) then
      (r, a) :: rankScan f beq r pk rest
    else
      (Rank.mk (r.val + 1), a) ::
        rankScan f beq (Rank.mk (r.val + 1)) (some (f a)) rest

lemma collect_eq_rankScan (beq : κ → κ → Bool) (f : α → κ) :
    ∀ (l : List α) (r : Rank) (pk : Option κ),
      (RankedBy.mk l f r pk).collect beq = rankScan f beq r pk l := by
  intro l
  induction l with
  | nil => intro r pk; rfl
  | cons a rest ih =>
    intro r pk
    show RankedBy.collectFuel beq (rest.length + 1) _ = _
    rw [RankedBy.collectFuel]
    by_cases h : optionEq beq pk (some (f a)) = true
    · simp only [RankedBy.next, h, if_true, rankScan]
      exact congrArg _ (ih r pk)
    · simp only [RankedBy.next, eq_false_of_ne_true h, if_false, Bool.false_eq_true, rankScan]
      exact congrArg _ (ih _ _)

lemma rankByCollect_eq (xs : List α) [LinearOrder κ] (f : α → κ) (beq : κ → κ → Bool) :
    rankByCollect xs f beq = rankScan f beq (Rank.mk 0) none (sort_by_key xs f) :=
  collect_eq_rankScan beq f (sort_by_key xs f) (Rank.mk 0) none

lemma rankScan_map_snd (f : α → κ) (beq : κ → κ → Bool) :
    ∀ (l : List α) (r : Rank) (pk : Option κ),
      (rankScan f beq r pk l).map Prod.snd = l := by
  intro l
  induction l with
  | nil => intro r pk; rfl
  | cons a rest ih =>
    intro r pk
    rw [rankScan]
    by_cases h : optionEq beq pk (some (f a)) = true
    · simp only [h, if_true, List.map_cons, ih]
    · simp only [eq_false_of_ne_true h, Bool.false_eq_true, if_false, List.map_cons, ih]

lemma sort_by_key_sorted [LinearOrder κ] (xs : List α) (f : α → κ) :
    List.Sorted (fun a b => f a ≤ f b) (sort_by_key xs f) :=
  @List.sorted_insertionSort α (fun a b => f a ≤ f b) _
    ⟨fun a b => le_total (f a) (f b)⟩
    ⟨fun _ _ _ hab hbc => le_trans hab hbc⟩ xs

lemma sort_by_key_perm [LinearOrder κ] (xs : List α) (f : α → κ) :
    (sort_by_key xs f).Perm xs :=
  List.perm_insertionSort _ xs

lemma rankByCollect_map_snd [LinearOrder κ] (xs : List α) (f : α → κ)
    (beq : κ → κ → Bool) :
    (rankByCollect xs f beq).map Prod.snd = sort_by_key xs f := by
  rw [rankByCollect_eq, rankScan_map_snd]

lemma rankByCollect_length (xs : List α) [LinearOrder κ] (f : α → κ)
    (beq : κ → κ → Bool) :
    (rankByCollect xs f beq).length = xs.length := by
  have h := congrArg List.length (rankByCollect_map_snd xs f beq)
  rw [List.length_map] at h
  rw [h]
  exact (sort_by_key_perm xs f).length_eq

lemma next_none_iff (beq : κ → κ → Bool) (s : RankedBy α κ) :
    s.next beq = none ↔ s.iter = [] := by
  rcases s with ⟨iter, f, r, pk⟩
  cases iter with
  | nil => simp [RankedBy.next]
  | cons a rest =>
    simp only [RankedBy.next]
    constructor
    · intro h
      exfalso
      by_cases hb : optionEq beq pk (some (f a)) = true <;> simp [hb] at h
    · intro h
      exact absurd h (List.cons_ne_nil a rest)

/-- C7: the output of rank_by, fully consumed, is a permutation of the
input (the same items rearranged), has the same length as the input, and
in particular an empty input yields an empty output. -/
theorem rank_by_permutation_length [LinearOrder κ] (xs : List α) (f : α → κ)
    (beq : κ → κ → Bool) :
    ((rankByCollect xs f beq).map Prod.snd).Perm xs ∧
      (rankByCollect xs f beq).length = xs.length ∧
      (xs = [] → rankByCollect xs f beq = []) := by
  refine ⟨?_, rankByCollect_length xs f beq, ?_⟩
  · rw [rankByCollect_map_snd]
    exact sort_by_key_perm xs f
  · intro h
    subst h
    rfl

/-- C7 witness at a concrete input. -/
theorem rank_by_permutation_length_witness :
    (((rankByCollect [3, 1, 3] (fun x : Nat => x) (fun a b => decide (a = b))).map
        Prod.snd).Perm [3, 1, 3] ∧
      (rankByCollect [3, 1, 3] (fun x : Nat => x) (fun a b => decide (a = b))).length =
        ([3, 1, 3] : List Nat).length ∧
      (([3, 1, 3] : List Nat) = [] →
        rankByCollect [3, 1, 3] (fun x : Nat => x) (fun a b => decide (a = b)) = [])) :=
  rank_by_permutation_length [3, 1, 3] (fun x : Nat => x) (fun a b => decide (a = b))

/-- C2: the items of the rank_by output, read in emission order, have
non-decreasing keys under the key type's total order. -/
theorem rank_by_output_sorted [LinearOrder κ] (xs : List α) (f : α → κ)
    (beq : κ → κ → Bool) :
    List.Pairwise (fun p q : Rank × α => f p.2 ≤ f q.2) (rankByCollect xs f beq) := by
  have hs : List.Pairwise (fun a b => f a ≤ f b) (sort_by_key xs f) :=
    sort_by_key_sorted xs f
  rw [← rankByCollect_map_snd xs f beq] at hs
  exact (@List.pairwise_map (Rank × α) α Prod.snd (fun a b => f a ≤ f b)
    (rankByCollect xs f beq)).mp hs

/-- C3: the sort is stable: for every key value k, the output items whose
key compares equal to k appear in exactly the original input order. -/
theorem rank_by_stable [LinearOrder κ] (xs : List α) (f : α → κ)
    (beq : κ → κ → Bool) (k : κ) :
    ((rankByCollect xs f beq).map Prod.snd).filter (fun a => decide (f a = k)) =
      xs.filter (fun a => decide (f a = k)) := by
  rw [rankByCollect_map_snd]
  have hmemk : ∀ a ∈ xs.filter (fun a => decide (f a = k)), f a = k := by
    intro a ha
    simpa using List.of_mem_filter ha
  have hsub : (xs.filter (fun a => decide (f a = k))).Sublist (sort_by_key xs f) := by
    apply List.sublist_insertionSort
    · exact List.pairwise_of_forall_mem_list fun a ha b hb =>
        le_of_eq ((hmemk a ha).trans (hmemk b hb).symm)
    · exact List.filter_sublist xs
  have hself : (xs.filter (fun a => decide (f a = k))).filter (fun a => decide (f a = k)) =
      xs.filter (fun a => decide (f a = k)) :=
    List.filter_eq_self.mpr fun a ha => by simpa using hmemk a ha
  have hsub2 : (xs.filter (fun a => decide (f a = k))).Sublist
      ((sort_by_key xs f).filter (fun a => decide (f a = k))) := by
    have := List.Sublist.filter (fun a => decide (f a = k)) hsub
    rwa [hself] at this
  have hlen : ((sort_by_key xs f).filter (fun a => decide (f a = k))).length =
      (xs.filter (fun a => decide (f a = k))).length :=
    ((sort_by_key_perm xs f).filter _).length_eq
  exact (hsub2.eq_of_length hlen.symm).symm

/-- C6: ranking the input 10, 20, 10, 30, 20, 10 with the identity key
function yields exactly the documented output sequence. -/
theorem rank_by_scenario_one :
    rankByCollect [10, 20, 10, 30, 20, 10] (fun x : Nat => x) (fun a b => decide (a = b)) =
      [(Rank.mk 1, 10), (Rank.mk 1, 10), (Rank.mk 1, 10),
       (Rank.mk 2, 20), (Rank.mk 2, 20), (Rank.mk 3, 30)] := by
  decide

/-- C9: the operation is total: the only way next yields nothing is
exhaustion of the remaining input, and full consumption always produces a
complete output, one pair per input item, with no failure branch. -/
theorem rank_by_total [LinearOrder κ] (xs : List α) (f : α → κ)
    (beq : κ → κ → Bool) :
    (rankByCollect xs f beq).length = xs.length ∧
      ∀ s : RankedBy α κ, (s.next beq = none ↔ s.iter = []) :=
  ⟨rankByCollect_length xs f beq, fun s => next_none_iff beq s⟩

/-- Number of rank increments the scan performs from a given prev_key state:
one per item whose key differs (per beq) from the running previous key. -/
def keyChanges (f : α → κ) (beq : κ → κ → Bool) : Option κ → List α → Nat
  | _, [] => 0
  | pk, a :: rest =>
    if optionEq beq pk (some (f a)) then keyChanges f beq pk rest
    else keyChanges f beq (some (f a)) rest + 1

lemma chainStep_le_getLastD :
    ∀ (t : List Nat) (b : Nat),
      List.Chain' (fun x y => y = x ∨ y = x + 1) (b :: t) → b ≤ t.getLastD b := by
  intro t
  induction t with
  | nil => intro b _; exact le_refl b
  | cons c t ih =>
    intro b hch
    rw [List.chain'_cons] at hch
    have h1 : b ≤ c := by rcases hch.1 with h | h <;> omega
    rw [List.getLastD_cons]
    exact le_trans h1 (ih c hch.2)

lemma chainStep_toFinset :
    ∀ (t : List Nat) (h : Nat),
      List.Chain' (fun x y => y = x ∨ y = x + 1) (h :: t) →
      (h :: t).toFinset = Finset.Icc h (t.getLastD h) := by
  intro t
  induction t with
  | nil => intro h _; simp
  | cons b t ih =>
    intro h hch
    rw [List.chain'_cons] at hch
    have hbt := ih b hch.2
    have hble : b ≤ t.getLastD b := chainStep_le_getLastD t b hch.2
    rw [List.getLastD_cons, List.toFinset_cons, hbt]
    rcases hch.1 with hb | hb
    · subst hb
      ext x
      simp only [Finset.mem_insert, Finset.mem_Icc]
      omega
    · subst hb
      ext x
      simp only [Finset.mem_insert, Finset.mem_Icc]
      omega

lemma card_insert_eq_card_erase_succ [DecidableEq κ] (S : Finset κ) (x : κ) :
    (insert x S).card = (S.erase x).card + 1 := by
  by_cases hx : x ∈ S
  · rw [Finset.insert_eq_self.mpr hx]
    exact (Finset.card_erase_add_one hx).symm
  · rw [Finset.card_insert_of_not_mem hx, Finset.erase_eq_of_not_mem hx]

lemma rankScan_rank_chain (f : α → κ) (beq : κ → κ → Bool) :
    ∀ (l : List α) (r : Rank) (pk : Option κ),
      List.Chain' (fun x y => y = x ∨ y = x + 1)
        (r.val :: (rankScan f beq r pk l).map (fun p => p.1.val)) := by
  intro l
  induction l with
  | nil => intro r pk; exact List.chain'_singleton r.val
  | cons a rest ih =>
    intro r pk
    rw [rankScan]
    by_cases h : optionEq beq pk (some (f a)) = true
    · rw [if_pos h]
      simp only [List.map_cons]
      exact List.chain'_cons.mpr ⟨Or.inl rfl, ih r pk⟩
    · rw [if_neg h]
      simp only [List.map_cons]
      exact List.chain'_cons.mpr ⟨Or.inr rfl, ih (Rank.mk (r.val + 1)) (some (f a))⟩

lemma rankScan_getLastD (f : α → κ) (beq : κ → κ → Bool) :
    ∀ (l : List α) (r : Rank) (pk : Option κ),
      ((rankScan f beq r pk l).map (fun p => p.1.val)).getLastD r.val =
        r.val + keyChanges f beq pk l := by
  intro l
  induction l with
  | nil => intro r pk; rfl
  | cons a rest ih =>
    intro r pk
    rw [rankScan, keyChanges]
    by_cases h : optionEq beq pk (some (f a)) = true
    · rw [if_pos h, if_pos h]
      simp only [List.map_cons, List.getLastD_cons]
      exact ih r pk
    · rw [if_neg h, if_neg h]
      simp only [List.map_cons, List.getLastD_cons]
      rw [ih (Rank.mk (r.val + 1)) (some (f a))]
      dsimp only
      omega

lemma keyChanges_some [LinearOrder κ] (f : α → κ) (beq : κ → κ → Bool)
    (hbeq : ∀ a b, beq a b = true ↔ a = b) :
    ∀ (l : List α) (k : κ),
      List.Pairwise (fun a b => f a ≤ f b) l → (∀ b ∈ l, k ≤ f b) →
      keyChanges f beq (some k) l = ((l.map f).toFinset.erase k).card := by
  intro l
  induction l with
  | nil => intro k _ _; simp [keyChanges]
  | cons a rest ih =>
    intro k hp hk
    have hka' : k ≤ f a := hk a (List.mem_cons_self a rest)
    have hrall : ∀ b ∈ rest, f a ≤ f b := (List.pairwise_cons.mp hp).1
    have hrest : List.Pairwise (fun a b => f a ≤ f b) rest := (List.pairwise_cons.mp hp).2
    rw [keyChanges]
    by_cases h : optionEq beq (some k) (some (f a)) = true
    · have hka : k = f a := (hbeq k (f a)).mp h
      rw [if_pos h, ih k hrest (fun b hb => le_trans (le_of_eq hka) (hrall b hb))]
      rw [List.map_cons, List.toFinset_cons, ← hka, Finset.erase_insert_eq_erase]
    · have hka : k ≠ f a := fun he => h ((hbeq k (f a)).mpr he)
      have hlt : k < f a := lt_of_le_of_ne hka' hka
      rw [if_neg h, ih (f a) hrest hrall]
      rw [List.map_cons, List.toFinset_cons]
      have hknot : k ∉ insert (f a) (rest.map f).toFinset := by
        simp only [Finset.mem_insert, List.mem_toFinset, List.mem_map]
        rintro (he | ⟨b, hb, he⟩)
        · exact hka he
        · have hkb : k < f b := lt_of_lt_of_le hlt (hrall b hb)
          exact absurd he (ne_of_gt hkb)
      rw [Finset.erase_eq_of_not_mem hknot]
      exact (card_insert_eq_card_erase_succ _ (f a)).symm

lemma keyChanges_none [LinearOrder κ] (f : α → κ) (beq : κ → κ → Bool)
    (hbeq : ∀ a b, beq a b = true ↔ a = b) (l : List α)
    (hp : List.Pairwise (fun a b => f a ≤ f b) l) :
    keyChanges f beq none l = (l.map f).toFinset.card := by
  cases l with
  | nil => simp [keyChanges]
  | cons a rest =>
    have hrall : ∀ b ∈ rest, f a ≤ f b := (List.pairwise_cons.mp hp).1
    have hrest : List.Pairwise (fun a b => f a ≤ f b) rest := (List.pairwise_cons.mp hp).2
    rw [keyChanges]
    rw [if_neg (by simp [optionEq])]
    rw [keyChanges_some f beq hbeq rest (f a) hrest hrall]
    rw [List.map_cons, List.toFinset_cons, card_insert_eq_card_erase_succ]

lemma rankScan_chain [LinearOrder κ] (f : α → κ) (beq : κ → κ → Bool)
    (hbeq : ∀ a b, beq a b = true ↔ a = b) :
    ∀ (l : List α) (r : Rank) (aprev : α),
      List.Chain' (fun p q : Rank × α =>
          q.1 = if f q.2 = f p.2 then p.1 else Rank.mk (p.1.val + 1))
        ((r, aprev) :: rankScan f beq r (some (f aprev)) l) := by
  intro l
  induction l with
  | nil => intro r aprev; exact List.chain'_singleton _
  | cons a rest ih =>
    intro r aprev
    rw [rankScan]
    by_cases h : optionEq beq (some (f aprev)) (some (f a)) = true
    · have hk : f aprev = f a := (hbeq _ _).mp h
      rw [if_pos h, List.chain'_cons]
      refine ⟨?_, ?_⟩
      · show r = if f a = f aprev then r else Rank.mk (r.val + 1)
        rw [if_pos hk.symm]
      · rw [hk]
        exact ih r a
    · have hk : f aprev ≠ f a := fun he => h ((hbeq _ _).mpr he)
      rw [if_neg h, List.chain'_cons]
      refine ⟨?_, ih (Rank.mk (r.val + 1)) a⟩
      show Rank.mk (r.val + 1) = if f a = f aprev then r else Rank.mk (r.val + 1)
      rw [if_neg (fun he => hk he.symm)]

/-- C1: under agreement of the key type's Ord and Eq, the first emitted pair
carries Rank 1, and each subsequent pair carries the previous pair's rank
when its key equals the previous pair's key and the previous rank's value
plus one otherwise. -/
theorem rank_by_first_rank_and_recurrence [LinearOrder κ] (xs : List α) (f : α → κ)
    (beq : κ → κ → Bool) (hbeq : ∀ a b, beq a b = true ↔ a = b) :
    (∀ p, (rankByCollect xs f beq).head? = some p → p.1 = Rank.mk 1) ∧
      List.Chain' (fun p q : Rank × α =>
        q.1 = if f q.2 = f p.2 then p.1 else Rank.mk (p.1.val + 1))
        (rankByCollect xs f beq) := by
  rw [rankByCollect_eq]
  cases hl : sort_by_key xs f with
  | nil =>
    refine ⟨fun p hp => ?_, List.chain'_nil⟩
    rw [rankScan] at hp
    exact absurd hp (by simp)
  | cons a rest =>
    rw [rankScan, if_neg (by simp [optionEq])]
    constructor
    · intro p hp
      simp only [List.head?_cons, Option.some.injEq] at hp
      rw [← hp]
    · exact rankScan_chain f beq hbeq rest (Rank.mk 1) a

/-- C1 witness at a concrete input. -/
theorem rank_by_first_rank_and_recurrence_witness :
    (∀ p, (rankByCollect [10, 20, 10] (fun x : Nat => x)
        (fun a b => decide (a = b))).head? = some p → p.1 = Rank.mk 1) ∧
      List.Chain' (fun p q : Rank × Nat =>
        q.1 = if q.2 = p.2 then p.1 else Rank.mk (p.1.val + 1))
        (rankByCollect [10, 20, 10] (fun x : Nat => x) (fun a b => decide (a = b))) :=
  rank_by_first_rank_and_recurrence [10, 20, 10] (fun x : Nat => x)
    (fun a b => decide (a = b)) (by simp)

lemma rankScan_toFinset_ranks [LinearOrder κ] (f : α → κ) (beq : κ → κ → Bool)
    (hbeq : ∀ a b, beq a b = true ↔ a = b) (l : List α)
    (hs : List.Pairwise (fun a b => f a ≤ f b) l) :
    ((rankScan f beq (Rank.mk 0) none l).map (fun p => p.1.val)).toFinset =
      Finset.Icc 1 (l.map f).toFinset.card := by
  cases l with
  | nil =>
    simp only [rankScan, List.map_nil, List.toFinset_nil, Finset.card_empty]
    exact (Finset.Icc_eq_empty (by omega)).symm
  | cons a rest =>
    have hrall : ∀ b ∈ rest, f a ≤ f b := (List.pairwise_cons.mp hs).1
    have hrest : List.Pairwise (fun a b => f a ≤ f b) rest := (List.pairwise_cons.mp hs).2
    rw [rankScan, if_neg (by simp [optionEq])]
    have hch : List.Chain' (fun x y => y = x ∨ y = x + 1)
        ((1 : Nat) :: ((rankScan f beq (Rank.mk 1) (some (f a)) rest).map
          (fun p => p.1.val))) :=
      rankScan_rank_chain f beq rest (Rank.mk 1) (some (f a))
    have htf := chainStep_toFinset _ 1 hch
    have hlast : ((rankScan f beq (Rank.mk 1) (some (f a)) rest).map
        (fun p => p.1.val)).getLastD 1 = 1 + keyChanges f beq (some (f a)) rest :=
      rankScan_getLastD f beq rest (Rank.mk 1) (some (f a))
    have hkc := keyChanges_some f beq hbeq rest (f a) hrest hrall
    show ((1 : Nat) :: (rankScan f beq (Rank.mk 1) (some (f a)) rest).map
        (fun p => p.1.val)).toFinset = Finset.Icc 1 ((a :: rest).map f).toFinset.card
    rw [htf]
    congr 1
    rw [hlast, hkc, List.map_cons, List.toFinset_cons, card_insert_eq_card_erase_succ]
    omega

/-- C4: under agreement of the key type's Ord and Eq, every emitted rank is
at least 1, ranks are non-decreasing in emission order, and the set of
emitted rank values is exactly the integer interval from 1 to the number of
distinct keys in the input. -/
theorem rank_by_rank_invariants [LinearOrder κ] (xs : List α) (f : α → κ)
    (beq : κ → κ → Bool) (hbeq : ∀ a b, beq a b = true ↔ a = b) :
    (∀ p ∈ rankByCollect xs f beq, 1 ≤ p.1.val) ∧
      List.Pairwise (fun p q : Rank × α => p.1.val ≤ q.1.val) (rankByCollect xs f beq) ∧
      ((rankByCollect xs f beq).map (fun p => p.1.val)).toFinset =
        Finset.Icc 1 (xs.map f).toFinset.card := by
  have hchain0 : List.Chain' (fun x y => y = x ∨ y = x + 1)
      ((0 : Nat) :: ((rankByCollect xs f beq).map (fun p => p.1.val))) := by
    rw [rankByCollect_eq]
    exact rankScan_rank_chain f beq (sort_by_key xs f) (Rank.mk 0) none
  have hset : ((rankByCollect xs f beq).map (fun p => p.1.val)).toFinset =
      Finset.Icc 1 (xs.map f).toFinset.card := by
    have hperm : ((sort_by_key xs f).map f).toFinset = (xs.map f).toFinset :=
      List.toFinset_eq_of_perm _ _ ((sort_by_key_perm xs f).map f)
    rw [rankByCollect_eq,
      rankScan_toFinset_ranks f beq hbeq (sort_by_key xs f) (sort_by_key_sorted xs f),
      hperm]
  refine ⟨?_, ?_, hset⟩
  · intro p hp
    have hmem : p.1.val ∈ ((rankByCollect xs f beq).map (fun p => p.1.val)).toFinset := by
      rw [List.mem_toFinset]
      exact List.mem_map_of_mem _ hp
    rw [hset] at hmem
    exact (Finset.mem_Icc.mp hmem).1
  · have h1 : List.Chain' (fun x y : Nat => x ≤ y)
        ((rankByCollect xs f beq).map (fun p => p.1.val)) :=
      (List.chain'_cons'.mp hchain0).2.imp (fun a b hab => by rcases hab with h | h <;> omega)
    exact (@List.pairwise_map (Rank × α) Nat (fun p => p.1.val) (fun x y => x ≤ y) _).mp
      (List.chain'_iff_pairwise.mp h1)

/-- C4 witness at a concrete input. -/
theorem rank_by_rank_invariants_witness :
    (∀ p ∈ rankByCollect [10, 20, 10] (fun x : Nat => x) (fun a b => decide (a = b)),
        1 ≤ p.1.val) ∧
      List.Pairwise (fun p q : Rank × Nat => p.1.val ≤ q.1.val)
        (rankByCollect [10, 20, 10] (fun x : Nat => x) (fun a b => decide (a = b))) ∧
      ((rankByCollect [10, 20, 10] (fun x : Nat => x)
          (fun a b => decide (a = b))).map (fun p => p.1.val)).toFinset =
        Finset.Icc 1 (([10, 20, 10] : List Nat).map (fun x : Nat => x)).toFinset.card :=
  rank_by_rank_invariants [10, 20, 10] (fun x : Nat => x)
    (fun a b => decide (a = b)) (by simp)

lemma rankScan_group [LinearOrder κ] (f : α → κ) (beq : κ → κ → Bool)
    (hbeq : ∀ a b, beq a b = true ↔ a = b) :
    ∀ (l : List α) (r : Rank) (k : κ),
      List.Pairwise (fun a b => f a ≤ f b) l → (∀ b ∈ l, k ≤ f b) →
      (∀ p ∈ rankScan f beq r (some k) l,
          (f p.2 = k → p.1 = r) ∧ (f p.2 ≠ k → r.val < p.1.val)) ∧
        List.Pairwise (fun p q : Rank × α => p.1 = q.1 ↔ f p.2 = f q.2)
          (rankScan f beq r (some k) l) := by
  intro l
  induction l with
  | nil =>
    intro r k _ _
    exact ⟨fun p hp => absurd hp (by simp [rankScan]), by simp [rankScan]⟩
  | cons a rest ih =>
    intro r k hp hk
    have hka' : k ≤ f a := hk a (List.mem_cons_self a rest)
    have hrall : ∀ b ∈ rest, f a ≤ f b := (List.pairwise_cons.mp hp).1
    have hrest : List.Pairwise (fun a b => f a ≤ f b) rest := (List.pairwise_cons.mp hp).2
    rw [rankScan]
    by_cases h : optionEq beq (some k) (some (f a)) = true
    · have hka : k = f a := (hbeq _ _).mp h
      rw [if_pos h]
      obtain ⟨ih1, ih2⟩ := ih r k hrest (fun b hb => le_trans (le_of_eq hka) (hrall b hb))
      constructor
      · intro p hp'
        rcases List.mem_cons.mp hp' with he | hmem
        · subst he
          exact ⟨fun _ => rfl, fun hne => absurd hka.symm hne⟩
        · exact ih1 p hmem
      · rw [List.pairwise_cons]
        refine ⟨?_, ih2⟩
        intro q hq
        obtain ⟨q1, q2⟩ := ih1 q hq
        show r = q.1 ↔ f a = f q.2
        constructor
        · intro hrq
          by_contra hne
          have hqk : f q.2 ≠ k := fun hqk => hne (by rw [hqk, ← hka])
          have hlt2 := q2 hqk
          rw [← hrq] at hlt2
          exact absurd hlt2 (lt_irrefl _)
        · intro hfq
          have hqk : f q.2 = k := by rw [← hfq, ← hka]
          exact (q1 hqk).symm
    · have hka : k ≠ f a := fun he => h ((hbeq _ _).mpr he)
      have hlt : k < f a := lt_of_le_of_ne hka' hka
      rw [if_neg h]
      obtain ⟨ih1, ih2⟩ := ih (Rank.mk (r.val + 1)) (f a) hrest hrall
      have hsnd : ∀ q ∈ rankScan f beq (Rank.mk (r.val + 1)) (some (f a)) rest,
          q.2 ∈ rest := by
        intro q hq
        have := List.mem_map_of_mem Prod.snd hq
        rwa [rankScan_map_snd] at this
      constructor
      · intro p hp'
        rcases List.mem_cons.mp hp' with he | hmem
        · subst he
          refine ⟨fun heq => absurd heq.symm hka, fun _ => ?_⟩
          show r.val < r.val + 1
          omega
        · obtain ⟨p1, p2⟩ := ih1 p hmem
          have hpk : f p.2 ≠ k :=
            ne_of_gt (lt_of_lt_of_le hlt (hrall p.2 (hsnd p hmem)))
          refine ⟨fun heq => absurd heq hpk, fun _ => ?_⟩
          by_cases hpa : f p.2 = f a
          · rw [p1 hpa]
            show r.val < r.val + 1
            omega
          · have h2 : r.val + 1 < p.1.val := p2 hpa
            omega
      · rw [List.pairwise_cons]
        refine ⟨?_, ih2⟩
        intro q hq
        obtain ⟨q1, q2⟩ := ih1 q hq
        show Rank.mk (r.val + 1) = q.1 ↔ f a = f q.2
        constructor
        · intro hrq
          by_contra hne
          have hlt2 := q2 (fun he => hne he.symm)
          rw [← hrq] at hlt2
          exact absurd hlt2 (lt_irrefl _)
        · intro hfq
          exact (q1 hfq.symm).symm

/-- C5: under agreement of the key type's Ord and Eq, any two items of the
rank_by output have equal rank exactly when their keys compare equal. -/
theorem rank_by_grouping [LinearOrder κ] (xs : List α) (f : α → κ)
    (beq : κ → κ → Bool) (hbeq : ∀ a b, beq a b = true ↔ a = b) :
    ∀ (i j : Fin (rankByCollect xs f beq).length),
      ((rankByCollect xs f beq).get i).1 = ((rankByCollect xs f beq).get j).1 ↔
        f ((rankByCollect xs f beq).get i).2 = f ((rankByCollect xs f beq).get j).2 := by
  have hpw : List.Pairwise (fun p q : Rank × α => p.1 = q.1 ↔ f p.2 = f q.2)
      (rankByCollect xs f beq) := by
    rw [rankByCollect_eq]
    have hs := sort_by_key_sorted xs f
    cases hl : sort_by_key xs f with
    | nil => simp [rankScan]
    | cons a rest =>
      rw [hl] at hs
      have hrall : ∀ b ∈ rest, f a ≤ f b := (List.pairwise_cons.mp hs).1
      have hrest : List.Pairwise (fun a b => f a ≤ f b) rest := (List.pairwise_cons.mp hs).2
      rw [rankScan, if_neg (by simp [optionEq])]
      obtain ⟨m1, m2⟩ := rankScan_group f beq hbeq rest (Rank.mk 1) (f a) hrest hrall
      rw [List.pairwise_cons]
      refine ⟨?_, m2⟩
      intro q hq
      obtain ⟨q1, q2⟩ := m1 q hq
      show Rank.mk 1 = q.1 ↔ f a = f q.2
      constructor
      · intro h1
        by_contra hne
        have hlt2 := q2 (fun he => hne he.symm)
        rw [← h1] at hlt2
        exact absurd hlt2 (lt_irrefl _)
      · intro hfq
        exact (q1 hfq.symm).symm
  intro i j
  rcases lt_trichotomy i j with hij | hij | hij
  · exact List.pairwise_iff_get.mp hpw i j hij
  · rw [hij]
    exact ⟨fun _ => rfl, fun _ => rfl⟩
  · have hswap := List.pairwise_iff_get.mp hpw j i hij
    exact ⟨fun he => (hswap.mp he.symm).symm, fun he => (hswap.mpr he.symm).symm⟩

/-- C5 witness at a concrete input and concrete output positions. -/
theorem rank_by_grouping_witness :
    (((rankByCollect [10, 20, 10] (fun x : Nat => x) (fun a b => decide (a = b))).get
        ⟨0, by decide⟩).1 =
      ((rankByCollect [10, 20, 10] (fun x : Nat => x) (fun a b => decide (a = b))).get
        ⟨1, by decide⟩).1 ↔
      ((rankByCollect [10, 20, 10] (fun x : Nat => x) (fun a b => decide (a = b))).get
        ⟨0, by decide⟩).2 =
      ((rankByCollect [10, 20, 10] (fun x : Nat => x) (fun a b => decide (a = b))).get
        ⟨1, by decide⟩).2) :=
  rank_by_grouping [10, 20, 10] (fun x : Nat => x) (fun a b => decide (a = b)) (by simp)
    ⟨0, by decide⟩ ⟨1, by decide⟩

/-- Big-step relation: the iterator state s, driven by repeated next calls
until exhaustion, emits exactly the sequence out. A second constructor-free
view of collect, used to express that the code has no nondeterminism. -/
inductive Produces (beq : κ → κ → Bool) : RankedBy α κ → List (Rank × α) → Prop where
  | done (s : RankedBy α κ) : s.iter = [] → Produces beq s []
  | step (s : RankedBy α κ) (s' : RankedBy α κ) (p : Rank × α) (out : List (Rank × α)) :
      s.next beq = some (p, s') → Produces beq s' out → Produces beq s (p :: out)

lemma produces_collect (beq : κ → κ → Bool) (f : α → κ) :
    ∀ (l : List α) (r : Rank) (pk : Option κ),
      Produces beq (RankedBy.mk l f r pk) ((RankedBy.mk l f r pk).collect beq) := by
  intro l
  induction l with
  | nil => intro r pk; exact Produces.done _ rfl
  | cons a rest ih =>
    intro r pk
    show Produces beq _ (RankedBy.collectFuel beq (rest.length + 1) _)
    rw [RankedBy.collectFuel]
    by_cases h : optionEq beq pk (some (f a)) = true
    · have hn : (RankedBy.mk (a :: rest) f r pk).next beq =
          some ((r, a), RankedBy.mk rest f r pk) := by
        simp [RankedBy.next, h]
      rw [hn]
      exact Produces.step _ _ _ _ hn (ih r pk)
    · have hn : (RankedBy.mk (a :: rest) f r pk).next beq =
          some ((Rank.mk (r.val + 1), a),
            RankedBy.mk rest f (Rank.mk (r.val + 1)) (some (f a))) := by
        simp [RankedBy.next, h]
      rw [hn]
      exact Produces.step _ _ _ _ hn (ih (Rank.mk (r.val + 1)) (some (f a)))

/-- C10: rank_by is deterministic: driving the same iterator state twice
yields identical output sequences (same items, same order, same ranks). -/
theorem rank_by_deterministic (beq : κ → κ → Bool) (s : RankedBy α κ)
    (out₁ out₂ : List (Rank × α))
    (h₁ : Produces beq s out₁) (h₂ : Produces beq s out₂) : out₁ = out₂ := by
  induction h₁ generalizing out₂ with
  | done s hs =>
    cases h₂ with
    | done _ _ => rfl
    | step _ s' p out hn _ =>
      rw [(next_none_iff beq _).mpr hs] at hn
      exact absurd hn (by simp)
  | step s s' p out hn hout ih =>
    cases h₂ with
    | done _ hs =>
      rw [(next_none_iff beq _).mpr hs] at hn
      exact absurd hn (by simp)
    | step _ s'' q out' hn' hout' =>
      rw [hn, Option.some.injEq, Prod.mk.injEq] at hn'
      obtain ⟨hpq, hss⟩ := hn'
      subst hpq
      subst hss
      rw [ih out' hout']

/-- C10 witness: two derivations from the same concrete state produce the
same output. -/
theorem rank_by_deterministic_witness :
    ([(Rank.mk 1, (5 : Nat))]) = ([(Rank.mk 1, (5 : Nat))]) :=
  rank_by_deterministic (fun a b : Nat => decide (a = b))
    (RankedBy.mk [5] (fun x => x) (Rank.mk 0) none) _ _
    (Produces.step _ (RankedBy.mk [] (fun x => x) (Rank.mk 1) (some 5)) (Rank.mk 1, 5) []
      rfl (Produces.done _ rfl))
    (Produces.step _ (RankedBy.mk [] (fun x => x) (Rank.mk 1) (some 5)) (Rank.mk 1, 5) []
      rfl (Produces.done _ rfl))

/-- Stable-sort insertion step with a boolean comparator, paired with the
number of comparator invocations it performs. -/
def orderedInsertCount (le : α → α → Bool) (a : α) : List α → List α × Nat
  | [] => ([a], 0)
  | b :: l =>
    if le a b then (a :: b :: l, 1)
    else (b :: (orderedInsertCount le a l).1, (orderedInsertCount le a l).2 + 1)

/-- The stable sort paired with the number of comparator invocations it
performs. Rust Vec::sort_by_key evaluates the key function afresh for both
elements of every comparison (it does not cache keys). -/
def insertionSortCount (le : α → α → Bool) : List α → List α × Nat
  | [] => ([], 0)
  | b :: l =>
    ((orderedInsertCount le b (insertionSortCount le l).1).1,
      (insertionSortCount le l).2 + (orderedInsertCount le b (insertionSortCount le l).1).2)

/-- Number of key-function invocations the scan performs: RankedBy next
computes the key of every item it yields, once per item. -/
def scanKeyCalls (f : α → κ) (beq : κ → κ → Bool) : Option κ → List α → Nat
  | _, [] => 0
  | pk, a :: rest =>
    if optionEq beq pk (some (f a)) then scanKeyCalls f beq pk rest + 1
    else scanKeyCalls f beq (some (f a)) rest + 1

/-- Total key-function invocations of the whole rank_by pipeline: two per
sort comparison (both compared elements have their key computed) plus the
scan's one per item. -/
def rankByKeyCalls [LinearOrder κ] (xs : List α) (f : α → κ) (beq : κ → κ → Bool) : Nat :=
  2 * (insertionSortCount (fun a b => decide (f a ≤ f b)) xs).2 +
    scanKeyCalls f beq none (sort_by_key xs f)

lemma orderedInsertCount_fst [LinearOrder κ] (f : α → κ) (a : α) :
    ∀ l : List α, (orderedInsertCount (fun a b => decide (f a ≤ f b)) a l).1 =
      List.orderedInsert (fun a b => f a ≤ f b) a l := by
  intro l
  induction l with
  | nil => rfl
  | cons b l ih =>
    rw [orderedInsertCount, List.orderedInsert]
    by_cases h : f a ≤ f b
    · rw [if_pos (by simp [h]), if_pos h]
    · rw [if_neg (by simp [h]), if_neg h]
      show b :: (orderedInsertCount _ a l).1 = _
      rw [ih]

lemma insertionSortCount_fst [LinearOrder κ] (f : α → κ) :
    ∀ xs : List α, (insertionSortCount (fun a b => decide (f a ≤ f b)) xs).1 =
      sort_by_key xs f := by
  intro xs
  induction xs with
  | nil => rfl
  | cons b l ih =>
    show (orderedInsertCount _ b (insertionSortCount _ l).1).1 = _
    rw [ih, orderedInsertCount_fst]
    rfl

lemma scanKeyCalls_eq_length (f : α → κ) (beq : κ → κ → Bool) :
    ∀ (l : List α) (pk : Option κ), scanKeyCalls f beq pk l = l.length := by
  intro l
  induction l with
  | nil => intro pk; rfl
  | cons a rest ih =>
    intro pk
    rw [scanKeyCalls, List.length_cons]
    by_cases h : optionEq beq pk (some (f a)) = true
    · rw [if_pos h, ih pk]
    · rw [if_neg h, ih (some (f a))]

/-- C8 as amended: the scan invokes the key function exactly once per item,
and the sort invokes it twice per comparison on top of that (keys are not
cached), so the total number of invocations is the input length plus twice
the number of sort comparisons, never less than the input length. -/
theorem rank_by_key_calls_amended [LinearOrder κ] (xs : List α) (f : α → κ)
    (beq : κ → κ → Bool) :
    rankByKeyCalls xs f beq =
      2 * (insertionSortCount (fun a b => decide (f a ≤ f b)) xs).2 + xs.length ∧
      xs.length ≤ rankByKeyCalls xs f beq := by
  have h1 : scanKeyCalls f beq none (sort_by_key xs f) = xs.length := by
    rw [scanKeyCalls_eq_length]
    exact (sort_by_key_perm xs f).length_eq
  constructor
  · rw [rankByKeyCalls, h1]
  · rw [rankByKeyCalls, h1]
    omega

/-- C8 counterexample: on the two-element input 2, 1 the pipeline invokes
the key function four times, which exceeds the input length, refuting the
claim that the total number of invocations is at most the input length. -/
theorem rank_by_key_calls_counterexample :
    ¬ (rankByKeyCalls [2, 1] (fun x : Nat => x) (fun a b => decide (a = b)) ≤
        ([2, 1] : List Nat).length) := by
  decide

end Librank
